import Mathlib

/-!
Verification development for the encryption core of the notes application
(`src/frontend/src/utils/cryptoNotes.ts`).

The four exported operations `encryptContent`, `decryptContent`,
`encryptImage`, `decryptImage` and the internal `deriveKey` are embedded as
Lean functions over `List Nat` byte sequences and `String` text.  The
browser platform primitives they call (`crypto.subtle`, `crypto.getRandomValues`,
`TextEncoder`/`TextDecoder`, `btoa`/`atob`) are not part of the repository;
they are modelled from the specification (see the doc comments marked
"Modelled from the spec").  Randomness is modelled by passing the freshly
drawn salt and nonce as explicit arguments to the encrypt operations.
-/

/-! ### A self-delimiting byte stream codec

`encList` turns a list of natural numbers into a stream of values `≤ 255`
(little-endian base-255 digits, each number terminated by the sentinel 255);
`decodeLoopAux` parses it back.  This executable, injective codec serves two
purposes: it is the model of the printable (base64) encoding used by
`encryptContent`/`decryptContent` (the spec only requires a printable,
invertible encoding with a notion of malformed input), and it provides an
injective `List Nat → Nat` encoding used by the idealized AES-GCM model. -/

def toB255Aux : Nat → Nat → List Nat
  | _, 0 => []
  | 0, _ + 1 => []
  | fuel + 1, n + 1 => (n + 1) % 255 :: toB255Aux fuel ((n + 1) / 255)

/-- Little-endian base-255 digits of `n`. -/
def toB255 (n : Nat) : List Nat := toB255Aux n n

/-- Parse one base-255 number terminated by the sentinel 255; return it and
the rest of the stream. -/
def parseNum : List Nat → Option (Nat × List Nat)
  | [] => none
  | d :: rest =>
    if d = 255 then some (0, rest)
    else if d < 255 then (parseNum rest).map (fun p => (d + 255 * p.1, p.2))
    else none

/-- Encode a list of numbers as a self-delimiting stream of values `≤ 255`. -/
def encList : List Nat → List Nat
  | [] => []
  | n :: t => toB255 n ++ 255 :: encList t

def decodeLoopAux : Nat → List Nat → Option (List Nat)
  | _, [] => some []
  | 0, _ :: _ => none
  | fuel + 1, d :: l =>
    match parseNum (d :: l) with
    | some (n, r) => (decodeLoopAux fuel r).map (fun t => n :: t)
    | none => none

/-- Decode a self-delimiting stream back into the list of numbers. -/
def decList (l : List Nat) : Option (List Nat) := decodeLoopAux l.length l

/-! ### An injective encoding of lists of numbers into a single number -/

/-- Read a digit stream (values `≤ 255`) as a number in base 256, with a
leading sentinel 1 recording the stream length.  Injective on streams of
values `≤ 255`. -/
def natOfStream (l : List Nat) : Nat := l.foldr (fun d r => d + 256 * r) 1

/-- Injective encoding of a list of numbers into a single number. -/
def encListNat (l : List Nat) : Nat := natOfStream (encList l)

/-! ### UTF-8 encoding and decoding

`utf8Encode` models `new TextEncoder().encode(...)` (standard UTF-8).
`utf8Decode` models `new TextDecoder().decode(...)`: the default WHATWG
decoder is non-fatal, never throws, and substitutes U+FFFD for invalid
byte sequences.  The model accepts exactly the valid UTF-8 sequences
(rejecting overlong forms, surrogates and out-of-range code points) and
replaces each invalid sequence with one or more U+FFFD characters
(resynchronization after an invalid byte is simplified to skipping one
byte, which can produce a different number of replacement characters than
the WHATWG algorithm on some invalid inputs, but never fails). -/

/-- Standard UTF-8 encoding of a single character (1 to 4 bytes). -/
def utf8EncodeChar (c : Char) : List Nat :=
  if c.toNat < 0x80 then [c.toNat]
  else if c.toNat < 0x800 then [0xC0 + c.toNat / 64, 0x80 + c.toNat % 64]
  else if c.toNat < 0x10000 then
    [0xE0 + c.toNat / 4096, 0x80 + (c.toNat / 64) % 64, 0x80 + c.toNat % 64]
  else
    [0xF0 + c.toNat / 262144, 0x80 + (c.toNat / 4096) % 64,
      0x80 + (c.toNat / 64) % 64, 0x80 + c.toNat % 64]

def utf8EncodeList : List Char → List Nat
  | [] => []
  | c :: cs => utf8EncodeChar c ++ utf8EncodeList cs

/-- Modelled from the spec: `new TextEncoder().encode(s)` — the UTF-8 bytes
of the string `s`. -/
def utf8Encode (s : String) : List Nat := utf8EncodeList s.data

/-- The Unicode replacement character U+FFFD. -/
def replChar : Char := Char.ofNat 0xFFFD

def utf8DecodeAux : Nat → List Nat → List Char
  | _, [] => []
  | 0, _ :: _ => []
  | fuel + 1, b1 :: rest =>
    if b1 < 0x80 then Char.ofNat b1 :: utf8DecodeAux fuel rest
    else if b1 < 0xC2 then replChar :: utf8DecodeAux fuel rest
    else if b1 < 0xE0 then
      match rest with
      | b2 :: rest2 =>
        if 0x80 ≤ b2 ∧ b2 < 0xC0 then
          Char.ofNat ((b1 - 0xC0) * 64 + (b2 - 0x80)) :: utf8DecodeAux fuel rest2
        else replChar :: utf8DecodeAux fuel rest
      | [] => [replChar]
    else if b1 < 0xF0 then
      match rest with
      | b2 :: b3 :: rest3 =>
        if 0x80 ≤ b2 ∧ b2 < 0xC0 ∧ 0x80 ≤ b3 ∧ b3 < 0xC0 ∧
            0x800 ≤ (b1 - 0xE0) * 4096 + (b2 - 0x80) * 64 + (b3 - 0x80) ∧
            ((b1 - 0xE0) * 4096 + (b2 - 0x80) * 64 + (b3 - 0x80) < 0xD800 ∨
              0xE000 ≤ (b1 - 0xE0) * 4096 + (b2 - 0x80) * 64 + (b3 - 0x80)) then
          Char.ofNat ((b1 - 0xE0) * 4096 + (b2 - 0x80) * 64 + (b3 - 0x80)) ::
            utf8DecodeAux fuel rest3
        else replChar :: utf8DecodeAux fuel rest
      | _ => replChar :: utf8DecodeAux fuel rest
    else if b1 < 0xF5 then
      match rest with
      | b2 :: b3 :: b4 :: rest4 =>
        if 0x80 ≤ b2 ∧ b2 < 0xC0 ∧ 0x80 ≤ b3 ∧ b3 < 0xC0 ∧ 0x80 ≤ b4 ∧ b4 < 0xC0 ∧
            0x10000 ≤ (b1 - 0xF0) * 262144 + (b2 - 0x80) * 4096 + (b3 - 0x80) * 64 + (b4 - 0x80) ∧
            (b1 - 0xF0) * 262144 + (b2 - 0x80) * 4096 + (b3 - 0x80) * 64 + (b4 - 0x80) < 0x110000 then
          Char.ofNat ((b1 - 0xF0) * 262144 + (b2 - 0x80) * 4096 + (b3 - 0x80) * 64 + (b4 - 0x80)) ::
            utf8DecodeAux fuel rest4
        else replChar :: utf8DecodeAux fuel rest
      | _ => replChar :: utf8DecodeAux fuel rest
    else replChar :: utf8DecodeAux fuel rest

/-- Modelled from the spec: `new TextDecoder().decode(bytes)` — non-fatal
UTF-8 decoding with U+FFFD replacement; total, never fails. -/
def utf8Decode (l : List Nat) : List Char := utf8DecodeAux l.length l

/-! ### The printable (base64) encoding

Modelled from the spec: `btoa`/`atob` are an invertible printable encoding
of a byte sequence into a string, with malformed strings rejected by the
decoder.  The model uses the self-delimiting stream codec above, mapping
each stream value (all `≤ 255`) to the character with that code point. -/

/-- Modelled from the spec: `btoa(String.fromCharCode(...bytes))` — printable
encoding of a byte sequence as a string. -/
def btoa (l : List Nat) : String := String.mk ((encList l).map Char.ofNat)

/-- Modelled from the spec: `atob` — decode a printable string back to the
byte sequence; `none` models the exception thrown on malformed input. -/
def atob (s : String) : Option (List Nat) := decList (s.data.map Char.toNat)

/-! ### The Web Crypto model

The repository calls `crypto.subtle` for PBKDF2 key derivation and
AES-256-GCM authenticated encryption.  These primitives are not repository
code; they are modelled from the spec.  A `CryptoKey` is an opaque handle
recording its algorithm, extractability, permitted usages and the
derivation inputs — faithful to Web Crypto, where derived keys marked
non-extractable never expose raw key bits.  AES-256-GCM is idealized: the
ciphertext body is the plaintext masked byte-by-byte with a keystream
determined by (key, nonce), followed by a 16-entry authentication tag whose
first entry injectively authenticates (key, nonce, ciphertext body) — so
decryption succeeds exactly on untampered envelopes under the right key,
which is the behavior the spec ascribes to GCM ("wrong password or
corrupted envelope fails authentication"). -/

structure KeyAlgorithm where
  name : String
  length : Nat
deriving DecidableEq

structure Pbkdf2Params where
  name : String
  salt : List Nat
  iterations : Nat
  hash : String
deriving DecidableEq

structure ImportedKey where
  format : String
  keyData : List Nat
  algorithmName : String
  extractable : Bool
  keyUsages : List String
deriving DecidableEq

structure CryptoKey where
  algorithm : KeyAlgorithm
  extractable : Bool
  keyUsages : List String
  baseKey : ImportedKey
  params : Pbkdf2Params
deriving DecidableEq

/-- Modelled from the spec: `crypto.subtle.importKey` — wraps raw key
material into an opaque key handle. -/
def subtleImportKey (format : String) (keyData : List Nat) (algorithmName : String)
    (extractable : Bool) (keyUsages : List String) : ImportedKey :=
  ⟨format, keyData, algorithmName, extractable, keyUsages⟩

/-- Modelled from the spec: `crypto.subtle.deriveKey` — deterministically
derives an opaque key from the base key material and the PBKDF2 parameters
(salt, iteration count, hash), tagged with the target algorithm,
extractability and permitted usages.  Identical inputs yield the identical
key; the derived key material itself is never exposed (the handle is
non-extractable when so requested). -/
def subtleDeriveKey (params : Pbkdf2Params) (baseKey : ImportedKey)
    (algorithm : KeyAlgorithm) (extractable : Bool) (keyUsages : List String) : CryptoKey :=
  ⟨algorithm, extractable, keyUsages, baseKey, params⟩

/-- Injective fingerprint of the inputs that determine a derived key:
the imported raw key material and the PBKDF2 salt. -/
def encodeKey (k : CryptoKey) : Nat :=
  encListNat [encListNat k.baseKey.keyData, encListNat k.params.salt]

/-- Keystream byte `i` of the idealized AES-GCM cipher for (key, nonce). -/
def gcmKeystream (key : CryptoKey) (iv : List Nat) (i : Nat) : Nat :=
  Nat.pair (encodeKey key) (Nat.pair (encListNat iv) i) % 256

/-- Mask (or unmask — the operation is an involution) a byte sequence with
the keystream, starting at keystream index `i`. -/
def maskBytes (key : CryptoKey) (iv : List Nat) : Nat → List Nat → List Nat
  | _, [] => []
  | i, b :: l => (b ^^^ gcmKeystream key iv i) :: maskBytes key iv (i + 1) l

/-- The 16-entry authentication tag over (key, nonce, ciphertext body).
Its first entry is an injective fingerprint of all three, modelling the
spec's requirement that GCM authentication fail for any other key, nonce
or ciphertext. -/
def authTag (key : CryptoKey) (iv body : List Nat) : List Nat :=
  encListNat [encodeKey key, encListNat iv, encListNat body] :: List.replicate 15 0

/-- Modelled from the spec: `crypto.subtle.encrypt` with AES-256-GCM —
produces ciphertext of the plaintext's length followed by a 16-byte
authentication tag. -/
def subtleEncrypt (key : CryptoKey) (iv : List Nat) (data : List Nat) : List Nat :=
  maskBytes key iv 0 data ++ authTag key iv (maskBytes key iv 0 data)

/-- Modelled from the spec: `crypto.subtle.decrypt` with AES-256-GCM —
recovers the plaintext when the tag authenticates (key, nonce, body),
and fails (`none`, modelling the thrown `OperationError`) otherwise,
including whenever the input is shorter than the 16-byte tag. -/
def subtleDecrypt (key : CryptoKey) (iv : List Nat) (ct : List Nat) : Option (List Nat) :=
  if ct.length < 16 then none
  else if ct.drop (ct.length - 16) = authTag key iv (ct.take (ct.length - 16)) then
    some (maskBytes key iv 0 (ct.take (ct.length - 16)))
  else none

/-! ### The repository's encryption core (`cryptoNotes.ts`)

Below, each definition is the direct embedding of the function of the same
name in `src/frontend/src/utils/cryptoNotes.ts`.  Byte arrays
(`Uint8Array`) are `List Nat`; the randomness drawn by
`crypto.getRandomValues(new Uint8Array(16))` / `(new Uint8Array(12))` is
passed in as the explicit arguments `salt` and `iv` (with their lengths as
hypotheses where a claim needs them).  A thrown exception is `none` in the
`...Aux` function embedding the `try` body; the `catch` block is the
surrounding `match`, producing the single generic error the source throws. -/

/-- `toConcreteUint8Array`: copies the input into a fresh concrete array;
the identity on the byte-list model. -/
def toConcreteUint8Array (input : List Nat) : List Nat := input

/-- `deriveKey(password, salt)`: imports the UTF-8 bytes of the password as
raw PBKDF2 key material and derives a non-extractable AES-GCM 256-bit key
with 100,000 PBKDF2-HMAC-SHA-256 iterations, usable for encrypt/decrypt. -/
def deriveKey (password : String) (salt : List Nat) : CryptoKey :=
  let passwordBuffer := utf8Encode password
  let importedKey := subtleImportKey "raw" passwordBuffer "PBKDF2" false ["deriveKey"]
  subtleDeriveKey ⟨"PBKDF2", salt, 100000, "SHA-256"⟩ importedKey ⟨"AES-GCM", 256⟩ false
    ["encrypt", "decrypt"]

/-- `encryptContent(content, password)` with the randomly drawn `salt` and
`iv` passed explicitly: UTF-8 encode, derive key, AES-GCM encrypt,
concatenate salt ‖ iv ‖ ciphertext, base64 encode. -/
def encryptContent (content password : String) (salt iv : List Nat) : String :=
  let data := utf8Encode content
  let key := deriveKey password salt
  let encryptedData := subtleEncrypt key iv data
  let combined := salt ++ iv ++ encryptedData
  btoa combined

/-- The single error kind surfaced by the decrypt operations. -/
inductive CryptoError where
  | decryptionError (message : String)
deriving DecidableEq

/-- The `try` body of `decryptContent`: base64 decode, split at offsets 16
and 28, derive key from the embedded salt, AES-GCM decrypt, UTF-8 decode
(non-fatal).  `none` models any exception thrown inside the body. -/
def decryptContentAux (encryptedContent password : String) : Option String :=
  match atob encryptedContent with
  | none => none
  | some combined =>
    let salt := combined.take 16
    let iv := (combined.drop 16).take 12
    let encryptedData := combined.drop 28
    let key := deriveKey password salt
    (subtleDecrypt key iv encryptedData).map
      (fun decryptedData => String.mk (utf8Decode decryptedData))

/-- `decryptContent(encryptedContent, password)`: the `try`/`catch` —
any failure in the body collapses to the one generic error. -/
def decryptContent (encryptedContent password : String) : Except CryptoError String :=
  match decryptContentAux encryptedContent password with
  | some content => .ok content
  | none => .error (.decryptionError "Decryption failed. Incorrect password or corrupted data.")

/-- `encryptImage(imageBytes, password)` with the randomly drawn `salt` and
`iv` passed explicitly: derive key, AES-GCM encrypt the raw bytes,
return salt ‖ iv ‖ ciphertext unencoded. -/
def encryptImage (imageBytes : List Nat) (password : String) (salt iv : List Nat) : List Nat :=
  let key := deriveKey password salt
  let concreteBytes := toConcreteUint8Array imageBytes
  let encryptedData := subtleEncrypt key iv concreteBytes
  salt ++ iv ++ encryptedData

/-- The `try` body of `decryptImage`: split at offsets 16 and 28, derive
key from the embedded salt, AES-GCM decrypt. -/
def decryptImageAux (encryptedBytes : List Nat) (password : String) : Option (List Nat) :=
  let salt := encryptedBytes.take 16
  let iv := (encryptedBytes.drop 16).take 12
  let encryptedData := encryptedBytes.drop 28
  let key := deriveKey password salt
  subtleDecrypt key iv (toConcreteUint8Array encryptedData)

/-- `decryptImage(encryptedBytes, password)`: the `try`/`catch` —
any failure in the body collapses to the one generic error. -/
def decryptImage (encryptedBytes : List Nat) (password : String) :
    Except CryptoError (List Nat) :=
  match decryptImageAux encryptedBytes password with
  | some bytes => .ok bytes
  | none => .error (.decryptionError "Image decryption failed. Incorrect password or corrupted data.")

/-- Flip bit `j` of the byte at index `pos` of a byte sequence. -/
def tamperBit (l : List Nat) (pos j : Nat) : List Nat :=
  l.set pos (l.getD pos 0 ^^^ 2 ^ j)

/-- The raw (pre-base64) envelope produced by `encryptContent`. -/
def contentEnvelope (content password : String) (salt iv : List Nat) : List Nat :=
  salt ++ iv ++ subtleEncrypt (deriveKey password salt) iv (utf8Encode content)

theorem toB255Aux_lt (fuel n : Nat) : ∀ d ∈ toB255Aux fuel n, d < 255 := by
  induction fuel generalizing n with
  | zero =>
    cases n with
    | zero => intro d hd; simp [toB255Aux] at hd
    | succ m => intro d hd; simp [toB255Aux] at hd
  | succ fuel ih =>
    cases n with
    | zero => intro d hd; simp [toB255Aux] at hd
    | succ m =>
      intro d hd
      simp only [toB255Aux, List.mem_cons] at hd
      rcases hd with h | h
      · subst h; exact Nat.mod_lt _ (by omega)
      · exact ih _ d h

theorem parseNum_toB255Aux (fuel : Nat) :
    ∀ n rest, n ≤ fuel →
      parseNum (toB255Aux fuel n ++ 255 :: rest) = some (n, rest) := by
  induction fuel with
  | zero =>
    intro n rest hn
    interval_cases n
    simp [toB255Aux, parseNum]
  | succ fuel ih =>
    intro n rest hn
    cases n with
    | zero => simp [toB255Aux, parseNum]
    | succ m =>
      have hmod : (m + 1) % 255 < 255 := Nat.mod_lt _ (by omega)
      have hdiv : (m + 1) / 255 ≤ fuel := by
        have := Nat.div_lt_self (Nat.succ_pos m) (by omega : 1 < 255)
        omega
      simp only [toB255Aux, List.cons_append, parseNum, List.append_eq]
      rw [if_neg (by omega), if_pos hmod, ih _ rest hdiv]
      have hmd : (m + 1) % 255 + 255 * ((m + 1) / 255) = m + 1 := Nat.mod_add_div _ _
      simp [hmd]

theorem parseNum_toB255 (n : Nat) (rest : List Nat) :
    parseNum (toB255 n ++ 255 :: rest) = some (n, rest) :=
  parseNum_toB255Aux n n rest (Nat.le_refl n)

theorem decodeLoopAux_encList (fuel : Nat) :
    ∀ l : List Nat, (encList l).length ≤ fuel →
      decodeLoopAux fuel (encList l) = some l := by
  induction fuel with
  | zero =>
    intro l hl
    cases l with
    | nil => simp [encList, decodeLoopAux]
    | cons n t =>
      exfalso
      simp only [encList, List.length_append, List.length_cons] at hl
      omega
  | succ fuel ih =>
    intro l hl
    cases l with
    | nil => simp [encList, decodeLoopAux]
    | cons n t =>
      have hlen : (encList t).length ≤ fuel := by
        simp only [encList, List.length_append, List.length_cons] at hl
        omega
      have hparse := parseNum_toB255 n (encList t)
      cases hcase : toB255 n ++ 255 :: encList t with
      | nil => exact absurd hcase (by simp)
      | cons d rest =>
        simp only [encList, hcase, decodeLoopAux]
        rw [← hcase, hparse]
        simp [ih t hlen]

theorem decList_encList (l : List Nat) : decList (encList l) = some l :=
  decodeLoopAux_encList _ l (Nat.le_refl _)

theorem encList_injective : Function.Injective encList := by
  intro l₁ l₂ h
  have h₁ := decList_encList l₁
  rw [h, decList_encList l₂] at h₁
  exact (Option.some_injective _ h₁).symm

theorem encList_le (l : List Nat) : ∀ d ∈ encList l, d ≤ 255 := by
  induction l with
  | nil => intro d hd; simp [encList] at hd
  | cons n t ih =>
    intro d hd
    simp only [encList, List.mem_append, List.mem_cons] at hd
    rcases hd with h | h | h
    · exact Nat.le_of_lt (toB255Aux_lt n n d h)
    · omega
    · exact ih d h

theorem natOfStream_pos (l : List Nat) : 1 ≤ natOfStream l := by
  induction l with
  | nil => simp [natOfStream]
  | cons d t ih =>
    simp only [natOfStream, List.foldr_cons] at *
    omega

theorem natOfStream_injOn :
    ∀ l₁ l₂ : List Nat, (∀ d ∈ l₁, d ≤ 255) → (∀ d ∈ l₂, d ≤ 255) →
      natOfStream l₁ = natOfStream l₂ → l₁ = l₂ := by
  intro l₁
  induction l₁ with
  | nil =>
    intro l₂ _ hb₂ h
    cases l₂ with
    | nil => rfl
    | cons d t =>
      exfalso
      have ht := natOfStream_pos t
      simp only [natOfStream, List.foldr_cons, List.foldr_nil] at h ht
      omega
  | cons d₁ t₁ ih =>
    intro l₂ hb₁ hb₂ h
    cases l₂ with
    | nil =>
      exfalso
      have ht := natOfStream_pos t₁
      simp only [natOfStream, List.foldr_cons, List.foldr_nil] at h ht
      omega
    | cons d₂ t₂ =>
      simp only [natOfStream, List.foldr_cons] at h
      have hd₁ : d₁ ≤ 255 := hb₁ d₁ (by simp)
      have hd₂ : d₂ ≤ 255 := hb₂ d₂ (by simp)
      have hd : d₁ = d₂ ∧
          t₁.foldr (fun d r => d + 256 * r) 1 = t₂.foldr (fun d r => d + 256 * r) 1 := by
        omega
      have ht := ih t₂ (fun d hd => hb₁ d (by simp [hd])) (fun d hd => hb₂ d (by simp [hd])) hd.2
      rw [hd.1, ht]

theorem encListNat_injective : Function.Injective encListNat := by
  intro l₁ l₂ h
  exact encList_injective (natOfStream_injOn _ _ (encList_le l₁) (encList_le l₂) h)

theorem char_toNat_valid (c : Char) :
    c.toNat < 0xD800 ∨ (0xE000 ≤ c.toNat ∧ c.toNat < 0x110000) := by
  have h := c.valid
  unfold UInt32.isValidChar Nat.isValidChar at h
  unfold Char.toNat
  exact h

theorem toNat_ofNat_valid (n : Nat) (h : n.isValidChar) : (Char.ofNat n).toNat = n := by
  simp [Char.ofNat, h, Char.ofNatAux, Char.toNat, UInt32.toNat, BitVec.toNat_ofNatLt]

theorem utf8EncodeChar_length_pos (c : Char) : 1 ≤ (utf8EncodeChar c).length := by
  unfold utf8EncodeChar
  split_ifs <;> simp

theorem utf8DecodeAux_encChar (fuel : Nat) (c : Char) (rest : List Nat) :
    utf8DecodeAux (fuel + 1) (utf8EncodeChar c ++ rest) =
      c :: utf8DecodeAux fuel rest := by
  have hv := char_toNat_valid c
  rcases Nat.lt_or_ge c.toNat 0x80 with h1 | h1
  · have he : utf8EncodeChar c = [c.toNat] := by
      unfold utf8EncodeChar; rw [if_pos h1]
    rw [he]
    simp only [List.singleton_append, List.cons_append, List.nil_append, List.append_eq,
      utf8DecodeAux]
    rw [if_pos h1, Char.ofNat_toNat]
  · rcases Nat.lt_or_ge c.toNat 0x800 with h2 | h2
    · have he : utf8EncodeChar c = [0xC0 + c.toNat / 64, 0x80 + c.toNat % 64] := by
        unfold utf8EncodeChar; rw [if_neg (by omega), if_pos h2]
      have hn1 : ¬ (0xC0 + c.toNat / 64 < 0x80) := by omega
      have hn2 : ¬ (0xC0 + c.toNat / 64 < 0xC2) := by omega
      have hy3 : 0xC0 + c.toNat / 64 < 0xE0 := by omega
      have hc : 0x80 ≤ 0x80 + c.toNat % 64 ∧ 0x80 + c.toNat % 64 < 0xC0 := by omega
      have harith : (0xC0 + c.toNat / 64 - 0xC0) * 64 + (0x80 + c.toNat % 64 - 0x80) =
          c.toNat := by omega
      rw [he]
      simp only [List.singleton_append, List.cons_append, List.nil_append, List.append_eq,
        utf8DecodeAux]
      rw [if_neg hn1, if_neg hn2, if_pos hy3, if_pos hc, harith, Char.ofNat_toNat]
    · rcases Nat.lt_or_ge c.toNat 0x10000 with h3 | h3
      · have he : utf8EncodeChar c =
            [0xE0 + c.toNat / 4096, 0x80 + (c.toNat / 64) % 64, 0x80 + c.toNat % 64] := by
          unfold utf8EncodeChar; rw [if_neg (by omega), if_neg (by omega), if_pos h3]
        have hn1 : ¬ (0xE0 + c.toNat / 4096 < 0x80) := by omega
        have hn2 : ¬ (0xE0 + c.toNat / 4096 < 0xC2) := by omega
        have hn3 : ¬ (0xE0 + c.toNat / 4096 < 0xE0) := by omega
        have hy4 : 0xE0 + c.toNat / 4096 < 0xF0 := by omega
        have harith : (0xE0 + c.toNat / 4096 - 0xE0) * 4096 +
            (0x80 + (c.toNat / 64) % 64 - 0x80) * 64 + (0x80 + c.toNat % 64 - 0x80) =
            c.toNat := by omega
        have hc : 0x80 ≤ 0x80 + (c.toNat / 64) % 64 ∧ 0x80 + (c.toNat / 64) % 64 < 0xC0 ∧
            0x80 ≤ 0x80 + c.toNat % 64 ∧ 0x80 + c.toNat % 64 < 0xC0 ∧
            0x800 ≤ (0xE0 + c.toNat / 4096 - 0xE0) * 4096 +
              (0x80 + (c.toNat / 64) % 64 - 0x80) * 64 + (0x80 + c.toNat % 64 - 0x80) ∧
            ((0xE0 + c.toNat / 4096 - 0xE0) * 4096 +
              (0x80 + (c.toNat / 64) % 64 - 0x80) * 64 + (0x80 + c.toNat % 64 - 0x80) < 0xD800 ∨
              0xE000 ≤ (0xE0 + c.toNat / 4096 - 0xE0) * 4096 +
                (0x80 + (c.toNat / 64) % 64 - 0x80) * 64 + (0x80 + c.toNat % 64 - 0x80)) := by
          rw [harith]
          refine ⟨by omega, by omega, by omega, by omega, by omega, by omega⟩
        rw [he]
        simp only [List.singleton_append, List.cons_append, List.nil_append, List.append_eq,
          utf8DecodeAux]
        rw [if_neg hn1, if_neg hn2, if_neg hn3, if_pos hy4, if_pos hc, harith, Char.ofNat_toNat]
      · have he : utf8EncodeChar c =
            [0xF0 + c.toNat / 262144, 0x80 + (c.toNat / 4096) % 64,
              0x80 + (c.toNat / 64) % 64, 0x80 + c.toNat % 64] := by
          unfold utf8EncodeChar; rw [if_neg (by omega), if_neg (by omega), if_neg (by omega)]
        have hub : c.toNat < 0x110000 := by omega
        have hn1 : ¬ (0xF0 + c.toNat / 262144 < 0x80) := by omega
        have hn2 : ¬ (0xF0 + c.toNat / 262144 < 0xC2) := by omega
        have hn3 : ¬ (0xF0 + c.toNat / 262144 < 0xE0) := by omega
        have hn4 : ¬ (0xF0 + c.toNat / 262144 < 0xF0) := by omega
        have hy5 : 0xF0 + c.toNat / 262144 < 0xF5 := by omega
        have harith : (0xF0 + c.toNat / 262144 - 0xF0) * 262144 +
            (0x80 + (c.toNat / 4096) % 64 - 0x80) * 4096 +
            (0x80 + (c.toNat / 64) % 64 - 0x80) * 64 + (0x80 + c.toNat % 64 - 0x80) =
            c.toNat := by omega
        have hc : 0x80 ≤ 0x80 + (c.toNat / 4096) % 64 ∧ 0x80 + (c.toNat / 4096) % 64 < 0xC0 ∧
            0x80 ≤ 0x80 + (c.toNat / 64) % 64 ∧ 0x80 + (c.toNat / 64) % 64 < 0xC0 ∧
            0x80 ≤ 0x80 + c.toNat % 64 ∧ 0x80 + c.toNat % 64 < 0xC0 ∧
            0x10000 ≤ (0xF0 + c.toNat / 262144 - 0xF0) * 262144 +
              (0x80 + (c.toNat / 4096) % 64 - 0x80) * 4096 +
              (0x80 + (c.toNat / 64) % 64 - 0x80) * 64 + (0x80 + c.toNat % 64 - 0x80) ∧
            (0xF0 + c.toNat / 262144 - 0xF0) * 262144 +
              (0x80 + (c.toNat / 4096) % 64 - 0x80) * 4096 +
              (0x80 + (c.toNat / 64) % 64 - 0x80) * 64 + (0x80 + c.toNat % 64 - 0x80) <
              0x110000 := by
          rw [harith]
          refine ⟨by omega, by omega, by omega, by omega, by omega, by omega, by omega, hub⟩
        rw [he]
        simp only [List.singleton_append, List.cons_append, List.nil_append, List.append_eq,
          utf8DecodeAux]
        rw [if_neg hn1, if_neg hn2, if_neg hn3, if_neg hn4, if_pos hy5, if_pos hc, harith,
          Char.ofNat_toNat]

theorem utf8DecodeAux_encList (fuel : Nat) :
    ∀ cs : List Char, (utf8EncodeList cs).length ≤ fuel →
      utf8DecodeAux fuel (utf8EncodeList cs) = cs := by
  induction fuel with
  | zero =>
    intro cs h
    cases cs with
    | nil => simp [utf8EncodeList, utf8DecodeAux]
    | cons c cs =>
      exfalso
      have := utf8EncodeChar_length_pos c
      simp only [utf8EncodeList, List.length_append] at h
      omega
  | succ fuel ih =>
    intro cs h
    cases cs with
    | nil => simp [utf8EncodeList, utf8DecodeAux]
    | cons c cs =>
      have hlen : (utf8EncodeList cs).length ≤ fuel := by
        have := utf8EncodeChar_length_pos c
        simp only [utf8EncodeList, List.length_append] at h
        omega
      simp only [utf8EncodeList]
      rw [utf8DecodeAux_encChar fuel c (utf8EncodeList cs), ih cs hlen]

/-- Decoding is a left inverse of encoding: UTF-8 round trip. -/
theorem utf8Decode_utf8EncodeList (cs : List Char) :
    utf8Decode (utf8EncodeList cs) = cs :=
  utf8DecodeAux_encList _ cs (Nat.le_refl _)

theorem utf8Decode_utf8Encode (s : String) :
    String.mk (utf8Decode (utf8Encode s)) = s := by
  cases s with
  | mk data => rw [utf8Encode, utf8Decode_utf8EncodeList]

theorem utf8Encode_injective : Function.Injective utf8Encode := by
  intro a b h
  have ha := utf8Decode_utf8Encode a
  rw [h, utf8Decode_utf8Encode b] at ha
  exact ha.symm

theorem atob_btoa (l : List Nat) : atob (btoa l) = some l := by
  have hmap : ((encList l).map Char.ofNat).map Char.toNat = encList l := by
    rw [List.map_map]
    have hid : ∀ x ∈ encList l, (Char.toNat ∘ Char.ofNat) x = x := by
      intro x hx
      have hle := encList_le l x hx
      exact toNat_ofNat_valid x (Or.inl (by omega))
    calc (encList l).map (Char.toNat ∘ Char.ofNat) = (encList l).map id :=
          List.map_congr_left hid
      _ = encList l := List.map_id _
  show decList (((btoa l).data).map Char.toNat) = some l
  have hdata : (btoa l).data = (encList l).map Char.ofNat := rfl
  rw [hdata, hmap, decList_encList]

theorem btoa_injective : Function.Injective btoa := by
  intro l₁ l₂ h
  have h₁ := atob_btoa l₁
  rw [h, atob_btoa l₂] at h₁
  exact Option.some_injective _ h₁.symm

theorem maskBytes_length (key : CryptoKey) (iv : List Nat) :
    ∀ i l, (maskBytes key iv i l).length = l.length := by
  intro i l
  induction l generalizing i with
  | nil => simp [maskBytes]
  | cons b l ih => simp [maskBytes, ih]

theorem maskBytes_maskBytes (key : CryptoKey) (iv : List Nat) :
    ∀ i l, maskBytes key iv i (maskBytes key iv i l) = l := by
  intro i l
  induction l generalizing i with
  | nil => simp [maskBytes]
  | cons b l ih =>
    simp only [maskBytes, ih]
    rw [Nat.xor_assoc, Nat.xor_self, Nat.xor_zero]

theorem authTag_length (key : CryptoKey) (iv body : List Nat) :
    (authTag key iv body).length = 16 := by
  simp [authTag]

theorem subtleEncrypt_length (key : CryptoKey) (iv data : List Nat) :
    (subtleEncrypt key iv data).length = data.length + 16 := by
  simp [subtleEncrypt, maskBytes_length, authTag_length]

theorem subtleDecrypt_subtleEncrypt (key : CryptoKey) (iv data : List Nat) :
    subtleDecrypt key iv (subtleEncrypt key iv data) = some data := by
  have hlen := subtleEncrypt_length key iv data
  have hblen : (maskBytes key iv 0 data).length = data.length := maskBytes_length key iv 0 data
  have htake : (subtleEncrypt key iv data).take ((subtleEncrypt key iv data).length - 16) =
      maskBytes key iv 0 data := by
    rw [hlen, subtleEncrypt, Nat.add_sub_cancel, ← hblen, List.take_left]
  have hdrop : (subtleEncrypt key iv data).drop ((subtleEncrypt key iv data).length - 16) =
      authTag key iv (maskBytes key iv 0 data) := by
    rw [hlen, subtleEncrypt, Nat.add_sub_cancel, ← hblen, List.drop_left]
  rw [subtleDecrypt, if_neg (by omega), htake, hdrop, if_pos rfl, maskBytes_maskBytes]

/-- Tag equality forces equality of the authenticated data. -/
theorem authTag_inj {k₁ k₂ : CryptoKey} {iv₁ iv₂ b₁ b₂ : List Nat}
    (h : authTag k₁ iv₁ b₁ = authTag k₂ iv₂ b₂) :
    encodeKey k₁ = encodeKey k₂ ∧ iv₁ = iv₂ ∧ b₁ = b₂ := by
  simp only [authTag, List.cons.injEq] at h
  have h₁ := encListNat_injective h.1
  simp only [List.cons.injEq, and_true] at h₁
  exact ⟨h₁.1, encListNat_injective h₁.2.1, encListNat_injective h₁.2.2⟩

/-- Keys derived from different raw key material have different fingerprints. -/
theorem encodeKey_inj {k₁ k₂ : CryptoKey} (h : encodeKey k₁ = encodeKey k₂) :
    k₁.baseKey.keyData = k₂.baseKey.keyData ∧ k₁.params.salt = k₂.params.salt := by
  have h₁ := encListNat_injective h
  simp only [List.cons.injEq, and_true] at h₁
  exact ⟨encListNat_injective h₁.1, encListNat_injective h₁.2⟩

/-! ### Envelope splitting -/

theorem envelope_split (salt iv ct : List Nat) (hs : salt.length = 16) (hi : iv.length = 12) :
    (salt ++ iv ++ ct).take 16 = salt ∧ ((salt ++ iv ++ ct).drop 16).take 12 = iv ∧
      (salt ++ iv ++ ct).drop 28 = ct := by
  rw [List.append_assoc]
  have h1 : (salt ++ (iv ++ ct)).take 16 = salt := by
    rw [← hs]; exact List.take_left _ _
  have h2 : (salt ++ (iv ++ ct)).drop 16 = iv ++ ct := by
    rw [← hs]; exact List.drop_left _ _
  refine ⟨h1, ?_, ?_⟩
  · rw [h2, ← hi]; exact List.take_left _ _
  · rw [show (28 : Nat) = 16 + 12 from rfl, ← List.drop_drop 12 16, h2, ← hi]
    exact List.drop_left _ _

/-- `decryptImage`'s `try` body splits a well-formed envelope at exactly the
offsets 16 and 28 and hands the pieces to key derivation and decryption. -/
theorem decryptImageAux_split (salt iv ct : List Nat) (pw : String)
    (hs : salt.length = 16) (hi : iv.length = 12) :
    decryptImageAux (salt ++ iv ++ ct) pw = subtleDecrypt (deriveKey pw salt) iv ct := by
  obtain ⟨h1, h2, h3⟩ := envelope_split salt iv ct hs hi
  simp only [decryptImageAux, toConcreteUint8Array, h1, h2, h3]

/-- `decryptContent`'s `try` body splits a well-formed envelope the same
way after base64 decoding. -/
theorem decryptContentAux_split (salt iv ct : List Nat) (pw : String)
    (hs : salt.length = 16) (hi : iv.length = 12) :
    decryptContentAux (btoa (salt ++ iv ++ ct)) pw =
      (subtleDecrypt (deriveKey pw salt) iv ct).map
        (fun d => String.mk (utf8Decode d)) := by
  obtain ⟨h1, h2, h3⟩ := envelope_split salt iv ct hs hi
  simp only [decryptContentAux, atob_btoa, h1, h2, h3]

/-! ### Failure behavior of the idealized GCM -/

theorem subtleDecrypt_append (key : CryptoKey) (iv body tag : List Nat)
    (hlen : tag.length = 16) :
    subtleDecrypt key iv (body ++ tag) =
      if tag = authTag key iv body then some (maskBytes key iv 0 body) else none := by
  have hl : (body ++ tag).length = body.length + 16 := by simp [hlen]
  have htake : (body ++ tag).take ((body ++ tag).length - 16) = body := by
    rw [hl, Nat.add_sub_cancel]; exact List.take_left _ _
  have hdrop : (body ++ tag).drop ((body ++ tag).length - 16) = tag := by
    rw [hl, Nat.add_sub_cancel]; exact List.drop_left _ _
  rw [subtleDecrypt, if_neg (by omega), htake, hdrop]

/-- Decryption under a key derived from different raw key material fails. -/
theorem subtleDecrypt_wrong_key (k₁ k₂ : CryptoKey) (iv data : List Nat)
    (h : k₁.baseKey.keyData ≠ k₂.baseKey.keyData) :
    subtleDecrypt k₂ iv (subtleEncrypt k₁ iv data) = none := by
  rw [subtleEncrypt, subtleDecrypt_append _ _ _ _ (authTag_length _ _ _), if_neg]
  intro heq
  obtain ⟨hk, _, _⟩ := authTag_inj heq
  exact h (encodeKey_inj hk).1

theorem xor_two_pow_ne (b j : Nat) : b ^^^ 2 ^ j ≠ b := by
  intro h
  have h2 : b ^^^ (b ^^^ 2 ^ j) = b ^^^ b := by rw [h]
  rw [← Nat.xor_assoc, Nat.xor_self, Nat.zero_xor] at h2
  have := Nat.two_pow_pos j
  omega

theorem getD_append_right_of_le (a b : List Nat) (i d : Nat)
    (ha : a.length ≤ i) (hi : i < a.length + b.length) :
    (a ++ b).getD i d = b.getD (i - a.length) d := by
  rw [List.getD_eq_getElem _ _ (by simp; omega), List.getD_eq_getElem _ _ (by omega)]
  exact List.getElem_append_right ha

theorem getD_set_self (l : List Nat) (i v d : Nat) (h : i < l.length) :
    (l.set i v).getD i d = v := by
  rw [List.getD_eq_getElem _ _ (by simpa using h)]
  exact List.getElem_set_self (by simpa using h)

/-- Overwriting an entry with itself xor a bit really changes the list. -/
theorem set_xor_bit_ne (l : List Nat) (i d j : Nat) (h : i < l.length) :
    l.set i (l.getD i d ^^^ 2 ^ j) ≠ l := by
  intro heq
  have h1 : (l.set i (l.getD i d ^^^ 2 ^ j)).getD i d = l.getD i d := by rw [heq]
  rw [getD_set_self _ _ _ _ h] at h1
  exact xor_two_pow_ne _ j h1

/-- Flipping any single bit anywhere in the GCM output (ciphertext body or
tag) makes decryption fail. -/
theorem subtleDecrypt_tamper (k : CryptoKey) (iv data : List Nat) (pos j : Nat)
    (hpos : pos < data.length + 16) :
    subtleDecrypt k iv ((subtleEncrypt k iv data).set pos
      ((subtleEncrypt k iv data).getD pos 0 ^^^ 2 ^ j)) = none := by
  have hct : subtleEncrypt k iv data =
      maskBytes k iv 0 data ++ authTag k iv (maskBytes k iv 0 data) := rfl
  have hblen : (maskBytes k iv 0 data).length = data.length := maskBytes_length k iv 0 data
  have htlen : (authTag k iv (maskBytes k iv 0 data)).length = 16 := authTag_length _ _ _
  rcases Nat.lt_or_ge pos data.length with hk1 | hk1
  · have hv : (maskBytes k iv 0 data ++ authTag k iv (maskBytes k iv 0 data)).getD pos 0 =
        (maskBytes k iv 0 data).getD pos 0 :=
      List.getD_append _ _ _ _ (by omega)
    rw [hct, hv, List.set_append_left _ _ (by omega),
      subtleDecrypt_append _ _ _ _ htlen, if_neg]
    intro heq
    have hbody := (authTag_inj heq).2.2
    exact set_xor_bit_ne (maskBytes k iv 0 data) pos 0 j (by omega) hbody.symm
  · have hv : (maskBytes k iv 0 data ++ authTag k iv (maskBytes k iv 0 data)).getD pos 0 =
        (authTag k iv (maskBytes k iv 0 data)).getD (pos - (maskBytes k iv 0 data).length) 0 :=
      getD_append_right_of_le _ _ _ _ (by omega) (by omega)
    rw [hct, hv, List.set_append_right _ _ (by omega),
      subtleDecrypt_append _ _ _ _ (by simp [htlen]), if_neg]
    intro heq
    exact set_xor_bit_ne (authTag k iv (maskBytes k iv 0 data))
      (pos - (maskBytes k iv 0 data).length) 0 j (by omega) heq

theorem subtleDecrypt_short (key : CryptoKey) (iv ct : List Nat) (h : ct.length < 16) :
    subtleDecrypt key iv ct = none := by
  rw [subtleDecrypt, if_pos h]

/-! ### Shared round-trip lemmas -/

theorem decryptContent_encryptContent (content password : String) (salt iv : List Nat)
    (hs : salt.length = 16) (hi : iv.length = 12) :
    decryptContent (encryptContent content password salt iv) password = .ok content := by
  have henc : encryptContent content password salt iv =
      btoa (salt ++ iv ++ subtleEncrypt (deriveKey password salt) iv (utf8Encode content)) := rfl
  rw [henc, decryptContent, decryptContentAux_split _ _ _ _ hs hi,
    subtleDecrypt_subtleEncrypt]
  simp [utf8Decode_utf8Encode]

theorem decryptImage_encryptImage (data : List Nat) (password : String) (salt iv : List Nat)
    (hs : salt.length = 16) (hi : iv.length = 12) :
    decryptImage (encryptImage data password salt iv) password = .ok data := by
  have henc : encryptImage data password salt iv =
      salt ++ iv ++ subtleEncrypt (deriveKey password salt) iv data := rfl
  rw [henc, decryptImage, decryptImageAux_split _ _ _ _ hs hi, subtleDecrypt_subtleEncrypt]

/-! ### The claims -/

/-- Claim C1: for every plaintext (text for `encryptContent`/`decryptContent`,
byte sequence for `encryptImage`/`decryptImage`, including the empty string
and the empty byte sequence) and every password, decrypting the envelope
produced by encrypting with a password, using the same password, returns
exactly the original plaintext. -/
theorem C1_round_trip (content : String) (data : List Nat) (password : String)
    (salt iv : List Nat) (hs : salt.length = 16) (hi : iv.length = 12) :
    decryptContent (encryptContent content password salt iv) password = .ok content ∧
    decryptImage (encryptImage data password salt iv) password = .ok data :=
  ⟨decryptContent_encryptContent content password salt iv hs hi,
    decryptImage_encryptImage data password salt iv hs hi⟩

theorem C1_round_trip_witness :
    decryptContent (encryptContent "hello world" "correct horse"
        (List.replicate 16 7) (List.replicate 12 3)) "correct horse" = .ok "hello world" ∧
    decryptImage (encryptImage [137, 80, 78] "correct horse"
        (List.replicate 16 7) (List.replicate 12 3)) "correct horse" = .ok [137, 80, 78] :=
  C1_round_trip "hello world" [137, 80, 78] "correct horse"
    (List.replicate 16 7) (List.replicate 12 3) (by decide) (by decide)

/-- Claim C2: every envelope produced by `encryptContent` (before base64
encoding) or `encryptImage` has salt in bytes [0,16), nonce in [16,28) and
ciphertext-with-tag in [28,end); the ciphertext region is 16 bytes (the
tag) longer than the plaintext, so the whole envelope is plaintext length
plus 44; and the `try` bodies of `decryptContent` and `decryptImage` split
their input at exactly these offsets. -/
theorem C2_envelope_layout (content : String) (data : List Nat) (password : String)
    (salt iv ct : List Nat) (hs : salt.length = 16) (hi : iv.length = 12) :
    (atob (encryptContent content password salt iv) =
      some (salt ++ iv ++ subtleEncrypt (deriveKey password salt) iv (utf8Encode content))) ∧
    (salt ++ iv ++ subtleEncrypt (deriveKey password salt) iv (utf8Encode content)).length =
      (utf8Encode content).length + 44 ∧
    (encryptImage data password salt iv).take 16 = salt ∧
    ((encryptImage data password salt iv).drop 16).take 12 = iv ∧
    (encryptImage data password salt iv).drop 28 =
      subtleEncrypt (deriveKey password salt) iv data ∧
    ((encryptImage data password salt iv).drop 28).length = data.length + 16 ∧
    (encryptImage data password salt iv).length = data.length + 44 ∧
    decryptImageAux (salt ++ iv ++ ct) password =
      subtleDecrypt (deriveKey password salt) iv ct ∧
    decryptContentAux (btoa (salt ++ iv ++ ct)) password =
      (subtleDecrypt (deriveKey password salt) iv ct).map
        (fun d => String.mk (utf8Decode d)) := by
  have henc : encryptImage data password salt iv =
      salt ++ iv ++ subtleEncrypt (deriveKey password salt) iv data := rfl
  obtain ⟨h1, h2, h3⟩ :=
    envelope_split salt iv (subtleEncrypt (deriveKey password salt) iv data) hs hi
  refine ⟨atob_btoa _, ?_, ?_, ?_, ?_, ?_, ?_,
    decryptImageAux_split salt iv ct password hs hi,
    decryptContentAux_split salt iv ct password hs hi⟩
  · simp [subtleEncrypt_length, hs, hi]
    omega
  · rw [henc]; exact h1
  · rw [henc]; exact h2
  · rw [henc]; exact h3
  · rw [henc, h3, subtleEncrypt_length]
  · rw [henc]; simp [subtleEncrypt_length, hs, hi]; omega

theorem C2_envelope_layout_witness :
    atob (encryptContent "hello" "pw" (List.replicate 16 1) (List.replicate 12 2)) =
      some (List.replicate 16 1 ++ List.replicate 12 2 ++
        subtleEncrypt (deriveKey "pw" (List.replicate 16 1)) (List.replicate 12 2)
          (utf8Encode "hello")) ∧
    (List.replicate 16 1 ++ List.replicate 12 2 ++
      subtleEncrypt (deriveKey "pw" (List.replicate 16 1)) (List.replicate 12 2)
        (utf8Encode "hello")).length = (utf8Encode "hello").length + 44 ∧
    (encryptImage [9, 8, 7] "pw" (List.replicate 16 1) (List.replicate 12 2)).take 16 =
      List.replicate 16 1 ∧
    ((encryptImage [9, 8, 7] "pw" (List.replicate 16 1) (List.replicate 12 2)).drop 16).take 12 =
      List.replicate 12 2 ∧
    (encryptImage [9, 8, 7] "pw" (List.replicate 16 1) (List.replicate 12 2)).drop 28 =
      subtleEncrypt (deriveKey "pw" (List.replicate 16 1)) (List.replicate 12 2) [9, 8, 7] ∧
    ((encryptImage [9, 8, 7] "pw" (List.replicate 16 1) (List.replicate 12 2)).drop 28).length =
      [9, 8, 7].length + 16 ∧
    (encryptImage [9, 8, 7] "pw" (List.replicate 16 1) (List.replicate 12 2)).length =
      [9, 8, 7].length + 44 ∧
    decryptImageAux (List.replicate 16 1 ++ List.replicate 12 2 ++ [5]) "pw" =
      subtleDecrypt (deriveKey "pw" (List.replicate 16 1)) (List.replicate 12 2) [5] ∧
    decryptContentAux (btoa (List.replicate 16 1 ++ List.replicate 12 2 ++ [5])) "pw" =
      (subtleDecrypt (deriveKey "pw" (List.replicate 16 1)) (List.replicate 12 2) [5]).map
        (fun d => String.mk (utf8Decode d)) :=
  C2_envelope_layout "hello" [9, 8, 7] "pw" (List.replicate 16 1) (List.replicate 12 2) [5]
    (by decide) (by decide)

/-- Claim C3: for every plaintext and every pair of distinct passwords,
decrypting an envelope encrypted under the first password with the second
password fails with the generic decryption error (for `decryptContent` and
`decryptImage` alike), and never returns any plaintext. -/
theorem C3_wrong_password (content : String) (data : List Nat) (w₁ w₂ : String)
    (salt iv : List Nat) (hs : salt.length = 16) (hi : iv.length = 12) (hw : w₁ ≠ w₂) :
    decryptContent (encryptContent content w₁ salt iv) w₂ =
      .error (.decryptionError "Decryption failed. Incorrect password or corrupted data.") ∧
    decryptImage (encryptImage data w₁ salt iv) w₂ =
      .error (.decryptionError
        "Image decryption failed. Incorrect password or corrupted data.") := by
  have hk : (deriveKey w₁ salt).baseKey.keyData ≠ (deriveKey w₂ salt).baseKey.keyData := by
    show utf8Encode w₁ ≠ utf8Encode w₂
    exact fun h => hw (utf8Encode_injective h)
  constructor
  · have henc : encryptContent content w₁ salt iv =
        btoa (salt ++ iv ++ subtleEncrypt (deriveKey w₁ salt) iv (utf8Encode content)) := rfl
    rw [henc, decryptContent, decryptContentAux_split _ _ _ _ hs hi,
      subtleDecrypt_wrong_key _ _ _ _ hk]
    rfl
  · have henc : encryptImage data w₁ salt iv =
        salt ++ iv ++ subtleEncrypt (deriveKey w₁ salt) iv data := rfl
    rw [henc, decryptImage, decryptImageAux_split _ _ _ _ hs hi,
      subtleDecrypt_wrong_key _ _ _ _ hk]

theorem C3_wrong_password_witness :
    decryptContent (encryptContent "hello world" "correct horse"
        (List.replicate 16 4) (List.replicate 12 5)) "wrong password" =
      .error (.decryptionError "Decryption failed. Incorrect password or corrupted data.") ∧
    decryptImage (encryptImage [1, 2, 3] "correct horse"
        (List.replicate 16 4) (List.replicate 12 5)) "wrong password" =
      .error (.decryptionError
        "Image decryption failed. Incorrect password or corrupted data.") :=
  C3_wrong_password "hello world" [1, 2, 3] "correct horse" "wrong password"
    (List.replicate 16 4) (List.replicate 12 5) (by decide) (by decide) (by decide)

/-- Claim C4: for every input and password, any failure of a decrypt
operation surfaces as the single generic decryption-error kind — the error
value is one constant per operation, independent of the cause, so a wrong
password and a corrupted envelope are indistinguishable, and no
library-specific error leaks through (the result type admits no other
error). -/
theorem C4_uniform_error (s : String) (e : List Nat) (password : String) :
    ((∃ t, decryptContent s password = .ok t) ∨
      decryptContent s password =
        .error (.decryptionError "Decryption failed. Incorrect password or corrupted data.")) ∧
    ((∃ b, decryptImage e password = .ok b) ∨
      decryptImage e password =
        .error (.decryptionError
          "Image decryption failed. Incorrect password or corrupted data.")) ∧
    (∀ err, decryptContent s password = .error err → ∃ m, err = .decryptionError m) ∧
    (∀ err, decryptImage e password = .error err → ∃ m, err = .decryptionError m) := by
  refine ⟨?_, ?_, ?_, ?_⟩
  · cases h : decryptContentAux s password with
    | some t => exact Or.inl ⟨t, by rw [decryptContent, h]⟩
    | none => exact Or.inr (by rw [decryptContent, h])
  · cases h : decryptImageAux e password with
    | some b => exact Or.inl ⟨b, by rw [decryptImage, h]⟩
    | none => exact Or.inr (by rw [decryptImage, h])
  · intro err _
    cases err with
    | decryptionError m => exact ⟨m, rfl⟩
  · intro err _
    cases err with
    | decryptionError m => exact ⟨m, rfl⟩

/-- Claim C5: every envelope whose decoded byte length is under 28 fails
decryption with the generic decryption error for both operations: no
crash, no out-of-bounds read (the splits are total), no output. -/
theorem C5_truncated (combined e : List Nat) (password : String)
    (hc : combined.length < 28) (he : e.length < 28) :
    decryptContent (btoa combined) password =
      .error (.decryptionError "Decryption failed. Incorrect password or corrupted data.") ∧
    decryptImage e password =
      .error (.decryptionError
        "Image decryption failed. Incorrect password or corrupted data.") := by
  constructor
  · have hshort : (combined.drop 28).length < 16 := by
      simp only [List.length_drop]; omega
    simp only [decryptContent, decryptContentAux, atob_btoa]
    rw [subtleDecrypt_short _ _ _ hshort]
    rfl
  · have hshort : ((e.drop 28).length < 16) := by
      simp only [List.length_drop]; omega
    simp only [decryptImage, decryptImageAux, toConcreteUint8Array]
    rw [subtleDecrypt_short _ _ _ hshort]

theorem C5_truncated_witness :
    decryptContent (btoa [1, 2, 3]) "pw" =
      .error (.decryptionError "Decryption failed. Incorrect password or corrupted data.") ∧
    decryptImage [4, 5] "pw" =
      .error (.decryptionError
        "Image decryption failed. Incorrect password or corrupted data.") :=
  C5_truncated [1, 2, 3] [4, 5] "pw" (by decide) (by decide)

theorem tamperBit_append (a ct : List Nat) (pos j : Nat)
    (ha : a.length ≤ pos) (hlt : pos < a.length + ct.length) :
    tamperBit (a ++ ct) pos j = a ++ tamperBit ct (pos - a.length) j := by
  unfold tamperBit
  rw [List.set_append_right _ _ ha]
  congr 2
  rw [List.getD_eq_getElem _ _ (by simp; omega),
    List.getD_eq_getElem _ _ (by omega),
    List.getElem_append_right ha]

/-- Claim C6: flipping any single bit in the ciphertext-or-tag region
(bytes [28,end)) of a valid envelope makes decryption fail with the
generic decryption error — never returning altered, unauthenticated,
partial or garbage plaintext — for both the text and the binary form. -/
theorem C6_tamper (content : String) (data : List Nat) (password : String)
    (salt iv : List Nat) (pos j : Nat) (hs : salt.length = 16) (hi : iv.length = 12)
    (hpos : 28 ≤ pos)
    (hposc : pos < (utf8Encode content).length + 44)
    (hposd : pos < data.length + 44) :
    encryptContent content password salt iv =
      btoa (contentEnvelope content password salt iv) ∧
    decryptContent (btoa (tamperBit (contentEnvelope content password salt iv) pos j))
        password =
      .error (.decryptionError "Decryption failed. Incorrect password or corrupted data.") ∧
    decryptImage (tamperBit (encryptImage data password salt iv) pos j) password =
      .error (.decryptionError
        "Image decryption failed. Incorrect password or corrupted data.") := by
  have h28 : (salt ++ iv).length = 28 := by simp [hs, hi]
  refine ⟨rfl, ?_, ?_⟩
  · have hctlen : (subtleEncrypt (deriveKey password salt) iv (utf8Encode content)).length =
        (utf8Encode content).length + 16 := subtleEncrypt_length _ _ _
    have henv : contentEnvelope content password salt iv =
        (salt ++ iv) ++ subtleEncrypt (deriveKey password salt) iv (utf8Encode content) := by
      rw [contentEnvelope, List.append_assoc]
    rw [henv, tamperBit_append _ _ _ _ (by omega) (by omega), h28,
      decryptContent, decryptContentAux_split _ _ _ _ hs hi, tamperBit,
      subtleDecrypt_tamper _ _ _ _ _ (by omega)]
    rfl
  · have hctlen : (subtleEncrypt (deriveKey password salt) iv data).length =
        data.length + 16 := subtleEncrypt_length _ _ _
    have henv : encryptImage data password salt iv =
        (salt ++ iv) ++ subtleEncrypt (deriveKey password salt) iv data := by
      show salt ++ iv ++ subtleEncrypt (deriveKey password salt) iv data = _
      rw [List.append_assoc]
    rw [henv, tamperBit_append _ _ _ _ (by omega) (by omega), h28,
      decryptImage, decryptImageAux_split _ _ _ _ hs hi, tamperBit,
      subtleDecrypt_tamper _ _ _ _ _ (by omega)]

theorem C6_tamper_witness :
    encryptContent "hi" "pw" (List.replicate 16 9) (List.replicate 12 8) =
      btoa (contentEnvelope "hi" "pw" (List.replicate 16 9) (List.replicate 12 8)) ∧
    decryptContent
        (btoa (tamperBit (contentEnvelope "hi" "pw" (List.replicate 16 9)
          (List.replicate 12 8)) 30 0)) "pw" =
      .error (.decryptionError "Decryption failed. Incorrect password or corrupted data.") ∧
    decryptImage (tamperBit (encryptImage [1, 2, 3] "pw" (List.replicate 16 9)
        (List.replicate 12 8)) 30 0) "pw" =
      .error (.decryptionError
        "Image decryption failed. Incorrect password or corrupted data.") :=
  C6_tamper "hi" [1, 2, 3] "pw" (List.replicate 16 9) (List.replicate 12 8) 30 0
    (by decide) (by decide) (by decide) (by decide) (by decide)

/-- Claim C7: `deriveKey` derives its key by PBKDF2 with HMAC-SHA-256 at
exactly 100,000 iterations, producing a 256-bit key usable only as an
AES-256-GCM key, non-extractable, restricted to encrypt and decrypt use;
identical (password, salt) inputs yield the identical key. -/
theorem C7_deriveKey (password : String) (salt : List Nat) (p₂ : String) (s₂ : List Nat)
    (hp : password = p₂) (hs : salt = s₂) :
    (deriveKey password salt).params = ⟨"PBKDF2", salt, 100000, "SHA-256"⟩ ∧
    (deriveKey password salt).algorithm = ⟨"AES-GCM", 256⟩ ∧
    (deriveKey password salt).extractable = false ∧
    (deriveKey password salt).keyUsages = ["encrypt", "decrypt"] ∧
    (deriveKey password salt).baseKey =
      subtleImportKey "raw" (utf8Encode password) "PBKDF2" false ["deriveKey"] ∧
    deriveKey password salt = deriveKey p₂ s₂ := by
  subst hp hs
  exact ⟨rfl, rfl, rfl, rfl, rfl, rfl⟩

theorem C7_deriveKey_witness :
    (deriveKey "pw" [3, 1, 4]).params = ⟨"PBKDF2", [3, 1, 4], 100000, "SHA-256"⟩ ∧
    (deriveKey "pw" [3, 1, 4]).algorithm = ⟨"AES-GCM", 256⟩ ∧
    (deriveKey "pw" [3, 1, 4]).extractable = false ∧
    (deriveKey "pw" [3, 1, 4]).keyUsages = ["encrypt", "decrypt"] ∧
    (deriveKey "pw" [3, 1, 4]).baseKey =
      subtleImportKey "raw" (utf8Encode "pw") "PBKDF2" false ["deriveKey"] ∧
    deriveKey "pw" [3, 1, 4] = deriveKey "pw" [3, 1, 4] :=
  C7_deriveKey "pw" [3, 1, 4] "pw" [3, 1, 4] (by decide) (by decide)

theorem envelope_parts_inj (salt₁ iv₁ ct₁ salt₂ iv₂ ct₂ : List Nat)
    (hs₁ : salt₁.length = 16) (hi₁ : iv₁.length = 12)
    (hs₂ : salt₂.length = 16) (hi₂ : iv₂.length = 12)
    (h : salt₁ ++ iv₁ ++ ct₁ = salt₂ ++ iv₂ ++ ct₂) :
    salt₁ = salt₂ ∧ iv₁ = iv₂ := by
  constructor
  · have h1 := congrArg (List.take 16) h
    rwa [(envelope_split salt₁ iv₁ ct₁ hs₁ hi₁).1,
      (envelope_split salt₂ iv₂ ct₂ hs₂ hi₂).1] at h1
  · have h2 := congrArg (fun l => (List.drop 16 l).take 12) h
    simp only at h2
    rwa [(envelope_split salt₁ iv₁ ct₁ hs₁ hi₁).2.1,
      (envelope_split salt₂ iv₂ ct₂ hs₂ hi₂).2.1] at h2

/-- Claim C8: the encrypt operations consume a fresh 16-byte salt and a
fresh 12-byte nonce per call (modelled as the explicit random inputs); two
calls whose random draws differ in salt or nonce produce different
envelopes, for the same plaintext and password — equivalently, two equal
envelopes can only come from re-using the same salt and nonce. -/
theorem C8_fresh_randomness (content : String) (data : List Nat) (password : String)
    (salt₁ iv₁ salt₂ iv₂ : List Nat)
    (hs₁ : salt₁.length = 16) (hi₁ : iv₁.length = 12)
    (hs₂ : salt₂.length = 16) (hi₂ : iv₂.length = 12)
    (hne : salt₁ ≠ salt₂ ∨ iv₁ ≠ iv₂) :
    encryptContent content password salt₁ iv₁ ≠ encryptContent content password salt₂ iv₂ ∧
    encryptImage data password salt₁ iv₁ ≠ encryptImage data password salt₂ iv₂ := by
  constructor
  · intro h
    have hc := btoa_injective h
    have := envelope_parts_inj _ _ _ _ _ _ hs₁ hi₁ hs₂ hi₂ hc
    rcases hne with hne | hne <;> exact hne (by tauto)
  · intro h
    have := envelope_parts_inj _ _ _ _ _ _ hs₁ hi₁ hs₂ hi₂ h
    rcases hne with hne | hne <;> exact hne (by tauto)

theorem C8_fresh_randomness_witness :
    encryptContent "note" "pw" (List.replicate 16 0) (List.replicate 12 0) ≠
      encryptContent "note" "pw" (List.replicate 16 1) (List.replicate 12 0) ∧
    encryptImage [42] "pw" (List.replicate 16 0) (List.replicate 12 0) ≠
      encryptImage [42] "pw" (List.replicate 16 1) (List.replicate 12 0) :=
  C8_fresh_randomness "note" [42] "pw" (List.replicate 16 0) (List.replicate 12 0)
    (List.replicate 16 1) (List.replicate 12 0)
    (by decide) (by decide) (by decide) (by decide) (Or.inl (by decide))

/-- Claim C9: encryption succeeds on every well-formed input (the encrypt
operations are total functions in the model, matching the spec's "no error
conditions for well-formed input"), and an empty plaintext yields a small
(44-byte) valid envelope that decrypts back to the empty plaintext. -/
theorem C9_empty_plaintext (password : String) (salt iv : List Nat)
    (hs : salt.length = 16) (hi : iv.length = 12) :
    (∃ combined, atob (encryptContent "" password salt iv) = some combined ∧
      combined.length = 44) ∧
    decryptContent (encryptContent "" password salt iv) password = .ok "" ∧
    (encryptImage [] password salt iv).length = 44 ∧
    decryptImage (encryptImage [] password salt iv) password = .ok [] := by
  have h0 : utf8Encode "" = [] := rfl
  refine ⟨⟨salt ++ iv ++ subtleEncrypt (deriveKey password salt) iv (utf8Encode ""),
      atob_btoa _, ?_⟩, decryptContent_encryptContent "" password salt iv hs hi, ?_,
    decryptImage_encryptImage [] password salt iv hs hi⟩
  · simp [subtleEncrypt_length, hs, hi, h0]
  · show (salt ++ iv ++ subtleEncrypt (deriveKey password salt) iv []).length = 44
    simp [subtleEncrypt_length, hs, hi]

theorem C9_empty_plaintext_witness :
    (∃ combined, atob (encryptContent "" "pw" (List.replicate 16 6) (List.replicate 12 1)) =
      some combined ∧ combined.length = 44) ∧
    decryptContent (encryptContent "" "pw" (List.replicate 16 6) (List.replicate 12 1)) "pw" =
      .ok "" ∧
    (encryptImage [] "pw" (List.replicate 16 6) (List.replicate 12 1)).length = 44 ∧
    decryptImage (encryptImage [] "pw" (List.replicate 16 6) (List.replicate 12 1)) "pw" =
      .ok [] :=
  C9_empty_plaintext "pw" (List.replicate 16 6) (List.replicate 12 1) (by decide) (by decide)

/-- Claim C10: when authenticated decryption succeeds inside
`decryptContent` but the recovered bytes are not valid UTF-8 (for example,
an envelope produced by `encryptImage` fed to `decryptContent` with the
correct password), `decryptContent` does not fail: text decoding is
non-fatal and invalid byte sequences come back as U+FFFD replacement
characters. -/
theorem C10_nonfatal_text_decoding (data : List Nat) (password : String)
    (salt iv : List Nat) (hs : salt.length = 16) (hi : iv.length = 12) :
    decryptContent (btoa (encryptImage data password salt iv)) password =
      .ok (String.mk (utf8Decode data)) ∧
    utf8Decode [0x89, 0x50, 0x4E] = [replChar, 'P', 'N'] := by
  constructor
  · have henc : encryptImage data password salt iv =
        salt ++ iv ++ subtleEncrypt (deriveKey password salt) iv data := rfl
    rw [henc, decryptContent, decryptContentAux_split _ _ _ _ hs hi,
      subtleDecrypt_subtleEncrypt]
    rfl
  · decide

theorem C10_nonfatal_text_decoding_witness :
    decryptContent (btoa (encryptImage [137, 80, 78] "img-pass"
        (List.replicate 16 2) (List.replicate 12 9))) "img-pass" =
      .ok (String.mk (utf8Decode [137, 80, 78])) ∧
    utf8Decode [0x89, 0x50, 0x4E] = [replChar, 'P', 'N'] :=
  C10_nonfatal_text_decoding [137, 80, 78] "img-pass"
    (List.replicate 16 2) (List.replicate 12 9) (by decide) (by decide)
